import Mathlib

/-!
Shallow embedding of the `jikan` CLI timesheet (src/src/main.rs).

Rust `String`s are modelled as `List Char` (`Str`).  The storage layer of
`handle_set` (load-or-init, set one day, save) and the renderer
(`draw_days`, `draw_timesheet`) are translated function by function.
Machine integers (`usize`) are modelled as `Nat`; hour values live far
below `2^64`, where `usize` and `Nat` arithmetic agree.
-/

namespace Jikan

/-- Rust strings as character lists. -/
abbrev Str := List Char

/-- Coerce a Lean string literal into the character-list model. -/
def strOf (s : String) : Str := s.data

/-- Rust `str::split(sep)`: splits at every occurrence of `sep`;
`"".split(sep)` yields one empty piece. -/
def splitC (sep : Char) : Str → List Str
  | [] => [[]]
  | c :: rest =>
    if c = sep then [] :: splitC sep rest
    else
      match splitC sep rest with
      | [] => [[c]]
      | t :: ts => (c :: t) :: ts

/-- Joins tokens with a separator character (Rust `Itertools::join`). -/
def interc (sep : Char) : List Str → Str
  | [] => []
  | [t] => t
  | t :: u :: ts => t ++ sep :: interc sep (u :: ts)

theorem splitC_ne_nil (sep : Char) (s : Str) : splitC sep s ≠ [] := by
  induction s with
  | nil => simp [splitC]
  | cons c rest ih =>
    simp only [splitC]
    split
    · simp
    · cases h : splitC sep rest with
      | nil => simp
      | cons t ts => simp

theorem splitC_no_sep (sep : Char) (t : Str) (h : sep ∉ t) :
    splitC sep t = [t] := by
  induction t with
  | nil => rfl
  | cons c rest ih =>
    simp only [List.mem_cons, not_or] at h
    simp only [splitC]
    rw [if_neg (fun hc => h.1 hc.symm)]
    rw [ih h.2]

theorem splitC_append_sep (sep : Char) (t s : Str) (h : sep ∉ t) :
    splitC sep (t ++ sep :: s) = t :: splitC sep s := by
  induction t with
  | nil => simp [splitC]
  | cons c rest ih =>
    simp only [List.mem_cons, not_or] at h
    simp only [List.cons_append, splitC, List.append_eq]
    rw [if_neg (fun hc => h.1 hc.symm)]
    rw [ih h.2]

theorem splitC_interc (sep : Char) (ts : List Str)
    (hne : ts ≠ []) (h : ∀ t ∈ ts, sep ∉ t) :
    splitC sep (interc sep ts) = ts := by
  induction ts with
  | nil => exact absurd rfl hne
  | cons t rest ih =>
    cases rest with
    | nil =>
      simpa [interc] using splitC_no_sep sep t (h t (by simp))
    | cons u rest' =>
      simp only [interc]
      rw [splitC_append_sep sep t _ (h t (by simp))]
      rw [ih (by simp) (fun x hx => h x (List.mem_cons_of_mem _ hx))]

/-- The character for a decimal digit. -/
def digitChar (d : Nat) : Char :=
  match d with
  | 0 => '0' | 1 => '1' | 2 => '2' | 3 => '3' | 4 => '4'
  | 5 => '5' | 6 => '6' | 7 => '7' | 8 => '8' | _ => '9'

/-- Fuel-driven digit expansion; `fuel > n` always suffices, since the
argument shrinks by a factor of ten per step. -/
def natToStrAux : Nat → Nat → Str
  | 0, _ => []
  | fuel + 1, n =>
    if n < 10 then [digitChar n]
    else natToStrAux fuel (n / 10) ++ [digitChar (n % 10)]

/-- Decimal rendering of a `usize` (Rust `ToString`): most significant
digit first, `0` rendered as `"0"`. -/
def natToStr (n : Nat) : Str := natToStrAux (n + 1) n

/-- Numeric value of a decimal digit character, `none` for non-digits. -/
def digitVal (c : Char) : Option Nat :=
  if 48 ≤ c.toNat ∧ c.toNat ≤ 57 then some (c.toNat - 48) else none

/-- Left-to-right accumulation of decimal digits; fails on a non-digit. -/
def parseDigits : Str → Nat → Option Nat
  | [], acc => some acc
  | c :: rest, acc =>
    match digitVal c with
    | none => none
    | some d => parseDigits rest (10 * acc + d)

/-- Rust `str::parse::<usize>()`: an optional leading `+`, then one or
more decimal digits.  (Overflow of `usize` is not modelled; the values
this program stores fit comfortably.) -/
def rustParseNat (s : Str) : Option Nat :=
  let t := if s.head? = some '+' then s.tail else s
  if t = [] then none else parseDigits t 0

theorem digitVal_digitChar (d : Nat) (h : d < 10) :
    digitVal (digitChar d) = some d := by
  interval_cases d <;> decide

theorem digitChar_digit (d : Nat) (h : d < 10) :
    48 ≤ (digitChar d).toNat ∧ (digitChar d).toNat ≤ 57 := by
  interval_cases d <;> decide

theorem natToStrAux_digits (fuel : Nat) :
    ∀ n, n < fuel → ∀ c ∈ natToStrAux fuel n, 48 ≤ c.toNat ∧ c.toNat ≤ 57 := by
  induction fuel with
  | zero => intro n hn; omega
  | succ k ih =>
    intro n hn c hc
    rw [natToStrAux] at hc
    split at hc
    · simp only [List.mem_singleton] at hc
      subst hc
      rename_i h
      exact digitChar_digit n h
    · rw [List.mem_append] at hc
      rename_i h
      rcases hc with hc | hc
      · exact ih (n / 10) (by omega) c hc
      · simp only [List.mem_singleton] at hc
        subst hc
        exact digitChar_digit (n % 10) (Nat.mod_lt _ (by omega))

theorem natToStr_digits (n : Nat) :
    ∀ c ∈ natToStr n, 48 ≤ c.toNat ∧ c.toNat ≤ 57 :=
  natToStrAux_digits (n + 1) n (Nat.lt_succ_self n)

theorem natToStr_ne_nil (n : Nat) : natToStr n ≠ [] := by
  rw [natToStr, natToStrAux]
  split
  · simp
  · simp

theorem parseDigits_append_digit (s : Str) (c : Char) (d acc : Nat)
    (hc : digitVal c = some d) :
    parseDigits (s ++ [c]) acc =
      (parseDigits s acc).map (fun v => 10 * v + d) := by
  induction s generalizing acc with
  | nil => simp [parseDigits, hc]
  | cons x rest ih =>
    simp only [List.cons_append, parseDigits]
    cases hx : digitVal x with
    | none => simp
    | some e => simpa using ih (10 * acc + e)

theorem parseDigits_natToStrAux (fuel : Nat) :
    ∀ n, n < fuel → parseDigits (natToStrAux fuel n) 0 = some n := by
  induction fuel with
  | zero => intro n hn; omega
  | succ k ih =>
    intro n hn
    rw [natToStrAux]
    split
    · rename_i h
      simp [parseDigits, digitVal_digitChar n h]
    · rename_i h
      rw [parseDigits_append_digit _ _ _ _
        (digitVal_digitChar (n % 10) (Nat.mod_lt _ (by omega)))]
      rw [ih (n / 10) (by omega)]
      simp only [Option.map_some']
      congr 1
      omega

theorem parseDigits_natToStr (n : Nat) : parseDigits (natToStr n) 0 = some n :=
  parseDigits_natToStrAux (n + 1) n (Nat.lt_succ_self n)

theorem rustParseNat_natToStr (n : Nat) : rustParseNat (natToStr n) = some n := by
  have hd := natToStr_digits n
  cases h : natToStr n with
  | nil => exact absurd h (natToStr_ne_nil n)
  | cons c rest =>
    have hcd : 48 ≤ c.toNat ∧ c.toNat ≤ 57 := by
      apply hd; rw [h]; simp
    have hcp : ¬ ((c :: rest : Str).head? = some '+') := by
      simp only [List.head?, Option.some.injEq]
      intro he; subst he; revert hcd; decide
    have hp := parseDigits_natToStr n
    rw [h] at hp
    simp only [rustParseNat, h, hcp, if_false, reduceCtorEq, if_neg]
    simpa using hp

/-!
Calendar dates

`chrono::NaiveDate` restricted to years ≥ 1, proleptic Gregorian
calendar.  `rataDie` counts days since 0001-01-01 (a Monday), which
fixes the weekday function to agree with `chrono`'s `Datelike::weekday`.
-/

/-- A calendar date (year, month, day).  Mirrors `chrono::NaiveDate`
for years ≥ 1. -/
structure Date where
  year : Nat
  month : Nat
  day : Nat
deriving DecidableEq, Repr

/-- Gregorian leap-year rule. -/
def isLeap (y : Nat) : Bool := y % 4 == 0 && (y % 100 != 0 || y % 400 == 0)

/-- Number of days of month `m` in year `y` (0 for an invalid month). -/
def daysInMonth (y m : Nat) : Nat :=
  match m with
  | 1 => 31 | 2 => if isLeap y then 29 else 28 | 3 => 31 | 4 => 30
  | 5 => 31 | 6 => 30 | 7 => 31 | 8 => 31 | 9 => 30 | 10 => 31
  | 11 => 30 | 12 => 31 | _ => 0

/-- Successor of a valid calendar date, Rust `date + Duration::days(1)`. -/
def Date.nextDay (dt : Date) : Date :=
  if dt.day < daysInMonth dt.year dt.month then ⟨dt.year, dt.month, dt.day + 1⟩
  else if dt.month < 12 then ⟨dt.year, dt.month + 1, 1⟩
  else ⟨dt.year + 1, 1, 1⟩

/-- Days of the week, as in `chrono::Weekday`. -/
inductive Weekday
  | mon | tue | wed | thu | fri | sat | sun
deriving DecidableEq, Repr

/-- Days contained in the years `1 .. y-1`. -/
def daysBeforeYear (y : Nat) : Nat :=
  365 * (y - 1) + (y - 1) / 4 - (y - 1) / 100 + (y - 1) / 400

/-- Days contained in the months `1 .. m-1` of year `y`. -/
def daysBeforeMonth (y m : Nat) : Nat :=
  ((List.range (m - 1)).map (fun k => daysInMonth y (k + 1))).sum

/-- Day count since 0001-01-01. -/
def Date.rataDie (dt : Date) : Nat :=
  daysBeforeYear dt.year + daysBeforeMonth dt.year dt.month + (dt.day - 1)

/-- Weekday of a date; 0001-01-01 is a Monday in the proleptic
Gregorian calendar, matching `chrono`. -/
def Date.weekday (dt : Date) : Weekday :=
  match dt.rataDie % 7 with
  | 0 => .mon | 1 => .tue | 2 => .wed | 3 => .thu
  | 4 => .fri | 5 => .sat | _ => .sun

/-- The calendar days of month `m` of year `y`, ascending. -/
def monthDays (y m : Nat) : List Date :=
  (List.range (daysInMonth y m)).map (fun i => ⟨y, m, i + 1⟩)

/-- One `while iter.month() == m` loop from `handle_set` /
`draw_days` / `draw_timesheet`, unrolled with fuel: the sequence of
dates the loop visits.  32 fuel suffices for any month (≤ 31 days). -/
def monthIter (m : Nat) : Nat → Date → List Date
  | 0, _ => []
  | fuel + 1, cur =>
    if cur.month = m then cur :: monthIter m fuel cur.nextDay else []

/-- The dates visited by the loop when started at day 1 of month
`(y, m)`, exactly as the Rust code runs it. -/
def monthLoop (y m : Nat) : List Date := monthIter m 32 ⟨y, m, 1⟩

theorem daysInMonth_bounds (y m : Nat) (h1 : 1 ≤ m) (h2 : m ≤ 12) :
    28 ≤ daysInMonth y m ∧ daysInMonth y m ≤ 31 := by
  interval_cases m <;> simp [daysInMonth] <;> split <;> omega

theorem monthIter_stop (m fuel : Nat) (cur : Date) (h : cur.month ≠ m) :
    monthIter m fuel cur = [] := by
  cases fuel with
  | zero => rfl
  | succ k => simp [monthIter, h]

theorem monthIter_eq (y m : Nat) (h1 : 1 ≤ m) (h2 : m ≤ 12) :
    ∀ fuel d, 1 ≤ d → d ≤ daysInMonth y m → daysInMonth y m + 1 - d ≤ fuel →
      monthIter m fuel ⟨y, m, d⟩ =
        (List.range (daysInMonth y m + 1 - d)).map (fun i => ⟨y, m, d + i⟩) := by
  intro fuel
  induction fuel with
  | zero => intro d hd1 hd2 hf; omega
  | succ k ih =>
    intro d hd1 hd2 hf
    rw [monthIter]
    rw [if_pos rfl]
    by_cases hlt : d < daysInMonth y m
    · have hnext : (Date.mk y m d).nextDay = ⟨y, m, d + 1⟩ := by
        simp [Date.nextDay, hlt]
      rw [hnext, ih (d + 1) (by omega) (by omega) (by omega)]
      have hr : daysInMonth y m + 1 - d = (daysInMonth y m + 1 - (d + 1)) + 1 := by
        omega
      rw [hr, List.range_succ_eq_map]
      simp only [List.map_cons, List.map_map, Nat.add_zero]
      congr 1
      apply List.map_congr_left
      intro i _
      simp only [Function.comp_apply, Date.mk.injEq, true_and]
      omega
    · have hd : d = daysInMonth y m := by omega
      have hnext : (Date.mk y m d).nextDay.month ≠ m := by
        simp only [Date.nextDay]
        rw [if_neg (by simp; omega)]
        split
        · intro hc
          have hcm : m + 1 = m := hc
          omega
        · intro hc
          have hcm : (1 : Nat) = m := hc
          rename_i hm12
          simp only [not_lt] at hm12
          omega
      rw [monthIter_stop m k _ hnext]
      have hr : daysInMonth y m + 1 - d = 1 := by omega
      rw [hr, show List.range 1 = [0] from rfl]
      simp

theorem monthLoop_eq (y m : Nat) (h1 : 1 ≤ m) (h2 : m ≤ 12) :
    monthLoop y m = monthDays y m := by
  obtain ⟨hlo, hhi⟩ := daysInMonth_bounds y m h1 h2
  rw [monthLoop, monthIter_eq y m h1 h2 32 1 (by omega) (by omega) (by omega)]
  rw [monthDays]
  have hr : daysInMonth y m + 1 - 1 = daysInMonth y m := by omega
  rw [hr]
  apply List.map_congr_left
  intro i _
  simp only [Date.mk.injEq, true_and]
  omega

/-!
The timesheet store (`handle_set` in main.rs)

`handle_set` loads the month's record from its backing file (or
initializes it to all zeros, creating the data directory), overwrites
one day, sorts the entries by date and writes the two CSV lines back.
The in-memory `HashMap<NaiveDate, usize>` is modelled as an
association list of `(Date, Nat)` pairs in the order the loops insert
them; `Save`'s `sort_by` on the collected entries makes the on-disk
order independent of the map's internal order.
-/

/-- Rust `str::lines()`: split at `'\n'`, drop the empty piece after a
final newline, strip one trailing `'\r'` from each line. -/
def rustLines (s : Str) : List Str :=
  let parts := splitC '\n' s
  let parts := match parts.getLast? with
    | some [] => parts.dropLast
    | _ => parts
  parts.map (fun l => if l.getLast? = some '\x0d' then l.dropLast else l)

/-- The error taxonomy of the spec.  `corruptFormat` covers the
`context("Invalid timesheet format")`, `context("Missing data in month
report")` and `parse()?` failures of `handle_set`; `outOfRange` the
`unwrap()` panic of `state.get_mut(&day)`; `missingDay` the
`context("Missing day data")` failure of `draw_timesheet`. -/
inductive JErr
  | corruptFormat | outOfRange | missingDay | ioError
deriving DecidableEq, Repr

/-- Result of a fallible store or renderer operation. -/
inductive Res (α : Type) where
  | ok (a : α)
  | err (e : JErr)
deriving DecidableEq, Repr

/-- A month's daily-hours record: the in-memory
`HashMap<NaiveDate, usize>` as an association list. -/
abbrev DailyRecord := List (Date × Nat)

/-- The parsing loop of `handle_set`'s file-exists branch: for each
visited day take the next comma-token and `parse()` it; running out of
tokens is `context("Missing data in month report")`, a bad token a
`parse` failure — both `CorruptFormat` in the spec taxonomy.  Tokens
left over after the last day of the month are never consumed. -/
def readHours : List Date → List Str → Res DailyRecord
  | [], _ => .ok []
  | _ :: _, [] => .err .corruptFormat
  | d :: ds, t :: ts =>
    match rustParseNat t with
    | none => .err .corruptFormat
    | some v =>
      match readHours ds ts with
      | .ok rest => .ok ((d, v) :: rest)
      | .err e => .err e

/-- Parsing an existing backing file (`handle_set`, file-exists
branch): take the second line (`lines().nth(1)`), split it at commas,
and walk the days of the month pairing each with the next token.  The
first (date header) line is never read. -/
def parseContent (y m : Nat) (content : Str) : Res DailyRecord :=
  match (rustLines content)[1]? with
  | none => .err .corruptFormat
  | some line => readHours (monthLoop y m) (splitC ',' line)

/-- The fresh record of `handle_set`'s file-missing branch: every day
of the month mapped to 0. -/
def initRecord (y m : Nat) : DailyRecord :=
  (monthLoop y m).map (fun d => (d, 0))

/-- Identifies one project-month and hence one backing file. -/
structure MonthKey where
  project : Str
  year : Nat
  month : Nat
deriving DecidableEq, Repr

/-- Zero-pad to two digits (`chrono` format `%m`). -/
def pad2 (n : Nat) : Str := if n < 10 then '0' :: natToStr n else natToStr n

/-- Zero-pad to four digits (`chrono` format `%Y`, years ≥ 1). -/
def pad4 (n : Nat) : Str :=
  List.replicate (4 - (natToStr n).length) '0' ++ natToStr n

/-- Storage filename: the project name, `-time-`, the zero-padded
month, `-`, the year, `.csv` -- as the Rust format string builds it. -/
def fileName (k : MonthKey) : Str :=
  k.project ++ strOf "-time-" ++ pad2 k.month ++ '-' :: pad4 k.year ++ strOf ".csv"

/-- ISO rendering of a date (`NaiveDate` `Display`, `%Y-%m-%d`). -/
def dateToStr (d : Date) : Str :=
  pad4 d.year ++ '-' :: pad2 d.month ++ '-' :: pad2 d.day

/-- The filesystem visible to the program: the data directory's files
(path ↦ content) and whether the directory itself exists. -/
structure FS where
  files : List (Str × Str)
  dirExists : Bool
deriving DecidableEq, Repr

/-- Look a path up among the stored files. -/
def lookupFile (p : Str) : List (Str × Str) → Option Str
  | [] => none
  | (q, c) :: rest => if q = p then some c else lookupFile p rest

/-- Rust `File::create` + write: replace the file's content, or create it. -/
def upsertFile (p c : Str) : List (Str × Str) → List (Str × Str)
  | [] => [(p, c)]
  | (q, c0) :: rest =>
    if q = p then (p, c) :: rest else (q, c0) :: upsertFile p c rest

/-- The `Load` operation: the load-or-initialize phase of `handle_set`.  If the
backing file exists it is parsed; otherwise `fs::create_dir_all` makes
the data directory exist and the all-zero record is produced. -/
def load (k : MonthKey) (fs : FS) : Res (DailyRecord × FS) :=
  match lookupFile (fileName k) fs.files with
  | some content =>
    match parseContent k.year k.month content with
    | .ok r => .ok (r, fs)
    | .err e => .err e
  | none => .ok (initRecord k.year k.month, { fs with dirExists := true })

/-- Day lookup in the record (`HashMap::get_mut`). -/
def lookupDay (d : Date) : DailyRecord → Option Nat
  | [] => none
  | (k, v) :: rest => if k = d then some v else lookupDay d rest

/-- The `SetDay` operation, `*state.get_mut(&day).unwrap() = time`.  The `unwrap()`
panic on a day the record does not contain is the spec's `OutOfRange`
failure; the record itself is left untouched. -/
def setDay (r : DailyRecord) (d : Date) (hours : Nat) : Res DailyRecord :=
  match lookupDay d r with
  | some _ => .ok (r.map (fun kv => if kv.1 = d then (kv.1, hours) else kv))
  | none => .err .outOfRange

/-- Date order on record entries, `l_key.cmp(r_key)` of the save path. -/
def byDate (a b : Date × Nat) : Prop := a.1.rataDie ≤ b.1.rataDie

instance : DecidableRel byDate := fun a b => Nat.decLe a.1.rataDie b.1.rataDie

/-- The serialized form `Save` writes: entries sorted by date
(`state.sort_by`), then one `writeln!` of the comma-joined dates and
one of the comma-joined hours.  (Rust sorts once and serializes the
sorted vector twice; here the sort is written at both uses.) -/
def saveContent (r : DailyRecord) : Str :=
  interc ',' ((List.insertionSort byDate r).map (fun kv => dateToStr kv.1)) ++
    '\n' :: interc ',' ((List.insertionSort byDate r).map (fun kv => natToStr kv.2)) ++
    ['\n']

/-- The `Save` operation: `File::create` truncates, so the backing file is
unconditionally overwritten with the serialized record. -/
def save (k : MonthKey) (r : DailyRecord) (fs : FS) : FS :=
  { fs with files := upsertFile (fileName k) (saveContent r) fs.files }

/-- A record holding value `f d` for every day `d` of the month, in
ascending day order: the canonical full-coverage record. -/
def canonical (y m : Nat) (f : Date → Nat) : DailyRecord :=
  (monthDays y m).map (fun d => (d, f d))

/-!
The renderer (`draw_days`, `draw_timesheet` in main.rs)

Each printed fragment is modelled as a token plus a classification
(header / workday / weekend / separator); the ANSI colors the Rust
code attaches (`black().on_blue()` etc.) are the external styling the
spec layers on top of this classified token stream.  `{:<3}` pads the
token on the right with spaces to width 3.
-/

/-- How a rendered cell is styled. -/
inductive CellKind
  | header | workday | weekend | separator
deriving DecidableEq, Repr

/-- One rendered token with its classification. -/
abbrev Cell := Str × CellKind

/-- Rust `format!("{:<3}", s)`: right-pad with spaces to width 3. -/
def padTo3 (s : Str) : Str := s ++ List.replicate (3 - s.length) ' '

/-- Weekend test `matches!(iter.weekday(), Weekday::Sat | Weekday::Sun)`. -/
def isWeekendDay (d : Date) : Bool :=
  d.weekday = Weekday.sat || d.weekday = Weekday.sun

/-- The `if iter.weekday() == Weekday::Mon` check both loops run after
incrementing `iter`: the week separator printed right after a day's
cell, exactly when the following calendar day is a Monday. -/
def sepAfter (d : Date) : List Cell :=
  if d.nextDay.weekday = Weekday.mon then [(['|'], CellKind.separator)] else []

/-- Line 1 renderer `draw_days`: one header cell per day of the month (`iter.day()`
padded to width 3), with the week separator after Sunday-ending weeks. -/
def drawDays (y m : Nat) : List Cell :=
  (monthLoop y m).flatMap
    (fun d => (padTo3 (natToStr d.day), CellKind.header) :: sepAfter d)

/-- The body of `draw_timesheet`'s loop: a weekend day whose token is
exactly `"0"` renders as three blanks, any other weekend day as its
raw token; weekdays always render their raw token.  (`draw_timesheet`
compares the token to the string `"0"`, it never parses it.) -/
def cellFor (d : Date) (amt : Str) : Cell :=
  if isWeekendDay d then
    (padTo3 (if amt = ['0'] then strOf "   " else amt), CellKind.weekend)
  else
    (padTo3 amt, CellKind.workday)

/-- The loop of `draw_timesheet` over the month's days, consuming one
comma-token per day; exhausting the tokens while days remain is the
`context("Missing day data")` failure (`MissingDay`). -/
def renderRow : List Date → List Str → Res (List Cell)
  | [], _ => .ok []
  | _ :: _, [] => .err .missingDay
  | d :: ds, t :: ts =>
    match renderRow ds ts with
    | .ok rest => .ok (cellFor d t :: (sepAfter d ++ rest))
    | .err e => .err e

/-- Line 2 renderer `draw_timesheet`: re-read the backing file, take its second line,
split at commas and render one cell per day of the month. -/
def drawTimesheet (y m : Nat) (content : Str) : Res (List Cell) :=
  match (rustLines content)[1]? with
  | none => .err .corruptFormat
  | some line => renderRow (monthLoop y m) (splitC ',' line)

/-- Strict date order on entries. -/
def ltDate (a b : Date × Nat) : Prop := a.1.rataDie < b.1.rataDie

instance : DecidableRel ltDate := fun a b => Nat.decLt a.1.rataDie b.1.rataDie

instance : IsTotal (Date × Nat) byDate :=
  ⟨fun a b => Nat.le_total a.1.rataDie b.1.rataDie⟩

instance : IsTrans (Date × Nat) byDate := ⟨fun _ _ _ => Nat.le_trans⟩

instance : IsAntisymm (Date × Nat) ltDate :=
  ⟨fun _ _ h1 h2 => absurd (Nat.lt_trans h1 h2) (Nat.lt_irrefl _)⟩

/-- A backing file for April 2024 (30 days) whose data line carries
31 values. -/
def extraTokensContent : Str :=
  strOf "header" ++ '\n' :: interc ',' (List.replicate 31 ['0']) ++ ['\n']

/-- A backing file for April 2024 (30 days) whose data line carries
only 29 values (the spec's `CorruptFormat` scenario). -/
def fewTokensContent : Str :=
  strOf "header" ++ '\n' :: interc ',' (List.replicate 29 ['0']) ++ ['\n']

/-- The data line of `fewTokensContent`. -/
def fewLine : Str := interc ',' (List.replicate 29 ['0'])

/-- A two-line April 2024 file with 30 values but a header line of
garbage. -/
def garbledHeaderContent : Str :=
  strOf "not,even,dates!" ++ '\n' :: interc ',' (List.replicate 30 ['7']) ++ ['\n']

/-- A well-formed-looking sibling of `garbledHeaderContent` with the
same data line. -/
def plainHeaderContent : Str :=
  strOf "header" ++ '\n' :: interc ',' (List.replicate 30 ['7']) ++ ['\n']

/-!
Supporting lemmas
-/

theorem pad2_digits (n : Nat) : ∀ c ∈ pad2 n, 48 ≤ c.toNat ∧ c.toNat ≤ 57 := by
  intro c hc
  rw [pad2] at hc
  split at hc
  · rcases List.mem_cons.1 hc with h | h
    · subst h; decide
    · exact natToStr_digits n c h
  · exact natToStr_digits n c hc

theorem pad4_digits (n : Nat) : ∀ c ∈ pad4 n, 48 ≤ c.toNat ∧ c.toNat ≤ 57 := by
  intro c hc
  rw [pad4, List.mem_append] at hc
  rcases hc with h | h
  · have := List.eq_of_mem_replicate h
    subst this; decide
  · exact natToStr_digits n c h

/-- Every character of a serialized date is a digit or `'-'`. -/
theorem dateToStr_chars (d : Date) :
    ∀ c ∈ dateToStr d, (48 ≤ c.toNat ∧ c.toNat ≤ 57) ∨ c = '-' := by
  intro c hc
  rw [dateToStr] at hc
  rcases List.mem_append.1 hc with h | h
  · rcases List.mem_append.1 h with h' | h'
    · exact Or.inl (pad4_digits _ c h')
    · rcases List.mem_cons.1 h' with h2 | h2
      · exact Or.inr h2
      · exact Or.inl (pad2_digits _ c h2)
  · rcases List.mem_cons.1 h with h2 | h2
    · exact Or.inr h2
    · exact Or.inl (pad2_digits _ c h2)

theorem interc_chars (sep : Char) (ts : List Str) :
    ∀ c ∈ interc sep ts, c = sep ∨ ∃ t ∈ ts, c ∈ t := by
  intro c hc
  induction ts with
  | nil => simp [interc] at hc
  | cons t rest ih =>
    cases rest with
    | nil =>
      refine Or.inr ⟨t, by simp, ?_⟩
      simpa [interc] using hc
    | cons u rest' =>
      simp only [interc, List.mem_append, List.mem_cons] at hc
      rcases hc with h | h | h
      · exact Or.inr ⟨t, by simp, h⟩
      · exact Or.inl h
      · rcases ih h with h' | ⟨t', ht', hc'⟩
        · exact Or.inl h'
        · exact Or.inr ⟨t', List.mem_cons_of_mem _ ht', hc'⟩

/-- A line without `'\r'` at the end survives `lines()`' `\r`-strip. -/
theorem stripCR_id (l : Str) (h : ∀ c ∈ l, c ≠ '\x0d') :
    (if l.getLast? = some '\x0d' then l.dropLast else l) = l := by
  cases hl : l.getLast? with
  | none => simp
  | some a =>
    have ha := List.mem_of_mem_getLast? hl
    rw [if_neg]
    intro he
    exact h a ha (Option.some.inj he)

/-- Applying `lines()` to a two-line payload `l0 ++ "\n" ++ l1 ++ "\n"` whose
lines contain no `'\n'` or `'\r'` is `[l0, l1]`. -/
theorem rustLines_two (l0 l1 : Str)
    (h0 : ∀ c ∈ l0, c ≠ '\n' ∧ c ≠ '\x0d')
    (h1 : ∀ c ∈ l1, c ≠ '\n' ∧ c ≠ '\x0d') :
    rustLines (l0 ++ '\n' :: l1 ++ ['\n']) = [l0, l1] := by
  have hs : splitC '\n' (l0 ++ '\n' :: l1 ++ ['\n']) = [l0, l1, []] := by
    rw [List.append_assoc, List.cons_append]
    rw [splitC_append_sep '\n' l0 _ (fun hc => (h0 _ hc).1 rfl)]
    rw [show l1 ++ ['\n'] = l1 ++ '\n' :: [] from rfl,
        splitC_append_sep '\n' l1 _ (fun hc => (h1 _ hc).1 rfl)]
    rfl
  rw [rustLines, hs]
  show List.map (fun l => if l.getLast? = some '\x0d' then l.dropLast else l)
    [l0, l1] = [l0, l1]
  rw [List.map_cons, List.map_cons, List.map_nil,
      stripCR_id l0 (fun c hc => (h0 c hc).2),
      stripCR_id l1 (fun c hc => (h1 c hc).2)]

/-- The keys of a successfully parsed record are exactly the days the
loop visited, in order. -/
theorem readHours_keys (ds : List Date) (ts : List Str) (out : DailyRecord)
    (h : readHours ds ts = .ok out) : out.map Prod.fst = ds := by
  induction ds generalizing ts out with
  | nil =>
    cases ts <;> simp [readHours] at h <;> subst h <;> rfl
  | cons d ds' ih =>
    cases ts with
    | nil => simp [readHours] at h
    | cons t ts' =>
      rw [readHours] at h
      cases hp : rustParseNat t with
      | none => rw [hp] at h; exact absurd h (by simp)
      | some v =>
        rw [hp] at h
        cases hr : readHours ds' ts' with
        | ok rest =>
          rw [hr] at h
          have hout : out = (d, v) :: rest := by
            simpa using h.symm
          subst hout
          simp [ih ts' rest hr]
        | err e => rw [hr] at h; exact absurd h (by simp)

/-- Fewer tokens than days always fails (`CorruptFormat`), no matter
what the tokens contain. -/
theorem readHours_short (ds : List Date) (ts : List Str)
    (h : ts.length < ds.length) : readHours ds ts = .err .corruptFormat := by
  induction ds generalizing ts with
  | nil => simp at h
  | cons d ds' ih =>
    cases ts with
    | nil => rfl
    | cons t ts' =>
      rw [readHours]
      cases hp : rustParseNat t with
      | none => rfl
      | some v =>
        rw [ih ts' (by simpa using h)]

/-- Enough parsable tokens always succeed; surplus tokens are ignored. -/
theorem readHours_ok (ds : List Date) (ts : List Str)
    (hlen : ds.length ≤ ts.length)
    (hp : ∀ t ∈ ts.take ds.length, (rustParseNat t).isSome) :
    ∃ out, readHours ds ts = .ok out := by
  induction ds generalizing ts with
  | nil => exact ⟨[], rfl⟩
  | cons d ds' ih =>
    cases ts with
    | nil => simp at hlen
    | cons t ts' =>
      have ht : (rustParseNat t).isSome := hp t (by simp)
      rw [readHours]
      cases hpt : rustParseNat t with
      | none => rw [hpt] at ht; simp at ht
      | some v =>
        obtain ⟨out', hout'⟩ := ih ts' (by simpa using hlen)
          (fun u hu => hp u (List.mem_cons_of_mem _ (by simpa using hu)))
        exact ⟨(d, v) :: out', by rw [hout']⟩

/-- The parser run on the month's days and the matching rendered
tokens reproduces the canonical record. -/
theorem readHours_canonical (ds : List Date) (f : Date → Nat) :
    readHours ds (ds.map (fun d => natToStr (f d))) =
      .ok (ds.map (fun d => (d, f d))) := by
  induction ds with
  | nil => rfl
  | cons d ds' ih =>
    simp only [List.map_cons, readHours]
    rw [rustParseNat_natToStr (f d), ih]

/-- Strict date order on entries. -/
theorem mem_canonical (y m : Nat) (f : Date → Nat) (a : Date × Nat)
    (h : a ∈ canonical y m f) :
    ∃ i, i < daysInMonth y m ∧
      a = (⟨y, m, i + 1⟩, f ⟨y, m, i + 1⟩) := by
  rw [canonical, monthDays, List.map_map] at h
  obtain ⟨i, hi, ha⟩ := List.mem_map.1 h
  exact ⟨i, List.mem_range.1 hi, ha.symm⟩

theorem canonical_pairwise (y m : Nat) (f : Date → Nat) :
    (canonical y m f).Pairwise ltDate := by
  rw [canonical, monthDays, List.map_map, List.pairwise_map]
  apply (List.pairwise_lt_range _).imp
  intro i j hij
  show ltDate _ _
  unfold ltDate Date.rataDie
  simp only [Function.comp_apply]
  omega

theorem canonical_sorted (y m : Nat) (f : Date → Nat) :
    List.Sorted byDate (canonical y m f) :=
  (canonical_pairwise y m f).imp (fun h => Nat.le_of_lt h)

theorem canonical_nodup (y m : Nat) (f : Date → Nat) :
    (canonical y m f).Nodup :=
  (canonical_pairwise y m f).imp
    (fun h he => absurd (he ▸ h) (Nat.lt_irrefl _))

/-- Sorting any permutation of the canonical record by date recovers
the canonical record itself: the on-disk order does not depend on the
`HashMap`'s internal order. -/
theorem insertionSort_eq_canonical (y m : Nat) (f : Date → Nat) (r : DailyRecord)
    (hperm : r.Perm (canonical y m f)) :
    List.insertionSort byDate r = canonical y m f := by
  have hperm' : (List.insertionSort byDate r).Perm (canonical y m f) :=
    (List.perm_insertionSort byDate r).trans hperm
  have hsorted : List.Sorted byDate (List.insertionSort byDate r) :=
    List.sorted_insertionSort byDate r
  have hnd : (List.insertionSort byDate r).Nodup :=
    hperm'.symm.nodup (canonical_nodup y m f)
  have hmem : ∀ a ∈ List.insertionSort byDate r, a ∈ canonical y m f :=
    fun a ha => hperm'.mem_iff.1 ha
  have key : ∀ a b : Date × Nat, a ∈ canonical y m f → b ∈ canonical y m f →
      a ≠ b → byDate a b → ltDate a b := by
    intro a b hma hmb hne hle
    obtain ⟨i, hi, ha⟩ := mem_canonical y m f a hma
    obtain ⟨j, hj, hb⟩ := mem_canonical y m f b hmb
    subst ha; subst hb
    have hij : i ≠ j := by
      intro he; exact hne (by rw [he])
    unfold byDate Date.rataDie at hle
    unfold ltDate Date.rataDie
    simp only at hle ⊢
    omega
  have hlt : (List.insertionSort byDate r).Pairwise ltDate := by
    have hne : (List.insertionSort byDate r).Pairwise (fun a b => a ≠ b) := hnd
    refine (hsorted.and hne).imp_of_mem ?_
    intro a b hma hmb hab
    exact key a b (hmem a hma) (hmem b hmb) hab.2 hab.1
  exact List.eq_of_perm_of_sorted hperm' hlt (canonical_pairwise y m f)

theorem monthDays_ne_nil (y m : Nat) (h1 : 1 ≤ m) (h2 : m ≤ 12) :
    monthDays y m ≠ [] := by
  obtain ⟨hlo, _⟩ := daysInMonth_bounds y m h1 h2
  rw [monthDays]
  intro he
  rw [List.map_eq_nil, List.range_eq_nil] at he
  omega

theorem natToStr_no_comma (n : Nat) : ',' ∉ natToStr n := by
  intro h
  have := natToStr_digits n ',' h
  revert this; decide

/-- The characters of the serialized hours line. -/
theorem hoursLine_chars (s : DailyRecord) :
    ∀ c ∈ interc ',' (s.map (fun kv => natToStr kv.2)),
      c ≠ '\n' ∧ c ≠ '\x0d' := by
  intro c hc
  rcases interc_chars ',' _ c hc with h | ⟨t, ht, hct⟩
  · subst h; exact ⟨by decide, by decide⟩
  · obtain ⟨kv, _, ht'⟩ := List.mem_map.1 ht
    subst ht'
    have := natToStr_digits kv.2 c hct
    constructor <;> (intro he; subst he; revert this; decide)

/-- The characters of the serialized dates line. -/
theorem datesLine_chars (s : DailyRecord) :
    ∀ c ∈ interc ',' (s.map (fun kv => dateToStr kv.1)),
      c ≠ '\n' ∧ c ≠ '\x0d' := by
  intro c hc
  rcases interc_chars ',' _ c hc with h | ⟨t, ht, hct⟩
  · subst h; exact ⟨by decide, by decide⟩
  · obtain ⟨kv, _, ht'⟩ := List.mem_map.1 ht
    subst ht'
    rcases dateToStr_chars kv.1 c hct with hd | hd
    · constructor <;> (intro he; subst he; revert hd; decide)
    · subst hd; exact ⟨by decide, by decide⟩

/-- Applying `lines()` to a saved record gives exactly the dates line and the
hours line. -/
theorem rustLines_saveContent (r : DailyRecord) :
    rustLines (saveContent r) =
      [interc ',' ((List.insertionSort byDate r).map (fun kv => dateToStr kv.1)),
       interc ',' ((List.insertionSort byDate r).map (fun kv => natToStr kv.2))] := by
  rw [saveContent]
  exact rustLines_two _ _ (datesLine_chars _) (hoursLine_chars _)

/-- Splitting the hours line at commas recovers the value tokens. -/
theorem splitC_hoursLine (s : DailyRecord) (hne : s ≠ []) :
    splitC ',' (interc ',' (s.map (fun kv => natToStr kv.2))) =
      s.map (fun kv => natToStr kv.2) := by
  apply splitC_interc
  · simpa using hne
  · intro t ht hct
    obtain ⟨kv, _, ht'⟩ := List.mem_map.1 ht
    subst ht'
    exact natToStr_no_comma kv.2 hct

/-- Round trip at the level of file contents: parsing the serialized
canonical record yields the canonical record back. -/
theorem parse_save_canonical (y m : Nat) (h1 : 1 ≤ m) (h2 : m ≤ 12)
    (f : Date → Nat) :
    parseContent y m (saveContent (canonical y m f)) = .ok (canonical y m f) := by
  have hsort : List.insertionSort byDate (canonical y m f) = canonical y m f :=
    List.Sorted.insertionSort_eq (canonical_sorted y m f)
  have hcne : canonical y m f ≠ [] := by
    rw [canonical]
    simpa using monthDays_ne_nil y m h1 h2
  rw [parseContent, rustLines_saveContent, hsort]
  show readHours (monthLoop y m)
    (splitC ',' (interc ',' ((canonical y m f).map (fun kv => natToStr kv.2)))) =
      .ok (canonical y m f)
  rw [splitC_hoursLine _ hcne, monthLoop_eq y m h1 h2]
  have hmm : (canonical y m f).map (fun kv => natToStr kv.2) =
      (monthDays y m).map (fun d => natToStr (f d)) := by
    rw [canonical, List.map_map]
    rfl
  rw [hmm, readHours_canonical, canonical]

theorem lookupFile_upsert (p c : Str) (files : List (Str × Str)) :
    lookupFile p (upsertFile p c files) = some c := by
  induction files with
  | nil => simp [upsertFile, lookupFile]
  | cons qc rest ih =>
    rw [upsertFile]
    split
    · simp [lookupFile]
    · rename_i hq
      rw [lookupFile, if_neg hq]
      exact ih

/-!
The claims
-/

/-- C1.  Round trip: for any month key and any record `r` holding
exactly one entry per calendar day of the key's month (some value
`f d` per day `d`, in any order), saving and then loading yields a
record with the same dates and the same hours per date (equal as a
map, i.e. a permutation of the entry list `r`). -/
theorem c1_save_load_roundtrip (k : MonthKey) (fs : FS) (f : Date → Nat)
    (r : DailyRecord)
    (h1 : 1 ≤ k.month) (h2 : k.month ≤ 12)
    (hr : r.Perm (canonical k.year k.month f)) :
    ∃ out fs', load k (save k r fs) = .ok (out, fs') ∧ out.Perm r := by
  have hsc : saveContent r = saveContent (canonical k.year k.month f) := by
    rw [saveContent, saveContent, insertionSort_eq_canonical _ _ f r hr,
        List.Sorted.insertionSort_eq (canonical_sorted _ _ f)]
  have hlf : lookupFile (fileName k) (save k r fs).files =
      some (saveContent r) := by
    rw [save]
    exact lookupFile_upsert _ _ _
  refine ⟨canonical k.year k.month f, save k r fs, ?_, hr.symm⟩
  rw [load, hlf]
  show (match parseContent k.year k.month (saveContent r) with
    | .ok rec => Res.ok (rec, save k r fs)
    | .err e => Res.err e) =
      .ok (canonical k.year k.month f, save k r fs)
  rw [hsc, parse_save_canonical k.year k.month h1 h2 f]

/-- Witness for C1 at February 2023 (28 days): a record listing the
days in descending order with value 3 for every day round-trips. -/
theorem c1_save_load_roundtrip_witness :
    ((monthDays 2023 2).reverse.map (fun d => (d, 3))).Perm
        (canonical 2023 2 (fun _ => 3)) ∧
    ∃ out fs', load ⟨strOf "p", 2023, 2⟩
        (save ⟨strOf "p", 2023, 2⟩
          ((monthDays 2023 2).reverse.map (fun d => (d, 3))) ⟨[], false⟩) =
        .ok (out, fs') ∧
      out.Perm ((monthDays 2023 2).reverse.map (fun d => (d, 3))) := by
  have hp : ((monthDays 2023 2).reverse.map (fun d => (d, 3))).Perm
      (canonical 2023 2 (fun _ => 3)) := by
    rw [canonical]
    exact (List.reverse_perm (monthDays 2023 2)).map _
  exact ⟨hp, c1_save_load_roundtrip ⟨strOf "p", 2023, 2⟩ ⟨[], false⟩
    (fun _ => 3) _ (by decide) (by decide) hp⟩

/-- C2.  Every record the store produces has exactly one entry per
calendar day of its month, in ascending order from day 1 to the last
day: records parsed from an existing file, the fresh all-zero record,
and records returned by `setDay`. -/
theorem c2_full_coverage (y m : Nat) (h1 : 1 ≤ m) (h2 : m ≤ 12) :
    (∀ content out, parseContent y m content = .ok out →
        out.map Prod.fst = monthDays y m) ∧
    (initRecord y m).map Prod.fst = monthDays y m ∧
    (∀ (r : DailyRecord) (d : Date) (hours : Nat) out,
        r.map Prod.fst = monthDays y m → setDay r d hours = .ok out →
        out.map Prod.fst = monthDays y m) := by
  refine ⟨?_, ?_, ?_⟩
  · intro content out h
    rw [parseContent] at h
    cases hl : (rustLines content)[1]? with
    | none => rw [hl] at h; exact absurd h (by simp)
    | some line =>
      rw [hl] at h
      rw [readHours_keys _ _ _ h]
      exact monthLoop_eq y m h1 h2
  · rw [initRecord, List.map_map, monthLoop_eq y m h1 h2]
    exact List.map_id _
  · intro r d hours out hcov h
    rw [setDay] at h
    cases hl : lookupDay d r with
    | none => rw [hl] at h; exact absurd h (by simp)
    | some v =>
      rw [hl] at h
      have hout : out = r.map (fun kv => if kv.1 = d then (kv.1, hours) else kv) := by
        simpa using h.symm
      subst hout
      rw [List.map_map, ← hcov]
      apply List.map_congr_left
      intro kv _
      simp only [Function.comp_apply]
      split <;> rfl

/-- Witness for C2 at April 2024: the all-zero record covers the
month, a parsed saved file covers the month, and `setDay` preserves
coverage. -/
theorem c2_full_coverage_witness :
    (1 : Nat) ≤ 4 ∧ (4 : Nat) ≤ 12 ∧
    ((∀ content out, parseContent 2024 4 content = .ok out →
        out.map Prod.fst = monthDays 2024 4) ∧
      (initRecord 2024 4).map Prod.fst = monthDays 2024 4 ∧
      (∀ (r : DailyRecord) (d : Date) (hours : Nat) out,
        r.map Prod.fst = monthDays 2024 4 → setDay r d hours = .ok out →
        out.map Prod.fst = monthDays 2024 4)) :=
  ⟨by decide, by decide, c2_full_coverage 2024 4 (by decide) (by decide)⟩

theorem monthLoop_length (y m : Nat) (h1 : 1 ≤ m) (h2 : m ≤ 12) :
    (monthLoop y m).length = daysInMonth y m := by
  rw [monthLoop_eq y m h1 h2, monthDays, List.length_map, List.length_range]

/-- C3 counterexample: the claim says a count mismatch in EITHER
direction fails with `CorruptFormat`, but a data line with 31 values
for 30-day April 2024 parses successfully — the parse loop stops at
the month's last day and never looks at surplus tokens. -/
theorem c3_counterexample :
    daysInMonth 2024 4 = 30 ∧
    (splitC ',' ((rustLines extraTokensContent).getD 1 [])).length = 31 ∧
    parseContent 2024 4 extraTokensContent =
      .ok ((monthDays 2024 4).map (fun d => (d, 0))) :=
  ⟨by decide, by decide, by decide⟩

/-- C3 (amended).  With the backing file present and two lines read:
a data line with fewer values than the month has days fails with
`CorruptFormat`; a data line with at least as many values succeeds
(provided the consumed tokens parse), surplus values being silently
ignored. -/
theorem c3_count_mismatch (y m : Nat) (h1 : 1 ≤ m) (h2 : m ≤ 12)
    (content line : Str)
    (hl : (rustLines content)[1]? = some line) :
    ((splitC ',' line).length < daysInMonth y m →
      parseContent y m content = .err .corruptFormat) ∧
    (daysInMonth y m ≤ (splitC ',' line).length →
      (∀ t ∈ (splitC ',' line).take (daysInMonth y m), (rustParseNat t).isSome) →
      ∃ out, parseContent y m content = .ok out) := by
  constructor
  · intro hshort
    rw [parseContent, hl]
    show readHours (monthLoop y m) (splitC ',' line) = .err .corruptFormat
    apply readHours_short
    rw [monthLoop_length y m h1 h2]
    exact hshort
  · intro hlen hp
    rw [parseContent, hl]
    have hlen' : (monthLoop y m).length ≤ (splitC ',' line).length := by
      rw [monthLoop_length y m h1 h2]; exact hlen
    have hp' : ∀ t ∈ (splitC ',' line).take (monthLoop y m).length,
        (rustParseNat t).isSome := by
      rw [monthLoop_length y m h1 h2]; exact hp
    obtain ⟨out, hout⟩ := readHours_ok (monthLoop y m) _ hlen' hp'
    exact ⟨out, hout⟩

/-- Witness for C3's amended claim: the 29-value April 2024 file of
the spec's scenario fails with `CorruptFormat`. -/
theorem c3_count_mismatch_witness :
    (rustLines fewTokensContent)[1]? = some fewLine ∧
    (splitC ',' fewLine).length < daysInMonth 2024 4 ∧
    parseContent 2024 4 fewTokensContent = .err .corruptFormat :=
  ⟨by decide, by decide,
    (c3_count_mismatch 2024 4 (by decide) (by decide) fewTokensContent fewLine
      (by decide)).1 (by decide)⟩

/-- C4.  Loading a month whose backing file does not exist yields the
record with one all-zero entry per calendar day of the month, and
makes the storage directory exist (`fs::create_dir_all`). -/
theorem c4_load_missing (k : MonthKey) (fs : FS)
    (h1 : 1 ≤ k.month) (h2 : k.month ≤ 12)
    (hmiss : lookupFile (fileName k) fs.files = none) :
    load k fs = .ok (initRecord k.year k.month, { fs with dirExists := true }) ∧
    (initRecord k.year k.month).length = daysInMonth k.year k.month ∧
    (initRecord k.year k.month).map Prod.fst = monthDays k.year k.month ∧
    (∀ kv ∈ initRecord k.year k.month, kv.2 = 0) := by
  refine ⟨?_, ?_, ?_, ?_⟩
  · rw [load, hmiss]
  · rw [initRecord, List.length_map, monthLoop_length k.year k.month h1 h2]
  · rw [initRecord, List.map_map, monthLoop_eq _ _ h1 h2]
    exact List.map_id _
  · intro kv hkv
    rw [initRecord] at hkv
    obtain ⟨d, _, hd⟩ := List.mem_map.1 hkv
    rw [← hd]

/-- Witness for C4: loading February 2024 from an empty filesystem. -/
theorem c4_load_missing_witness :
    lookupFile (fileName ⟨strOf "p", 2024, 2⟩) (FS.mk [] false).files = none ∧
    (load ⟨strOf "p", 2024, 2⟩ ⟨[], false⟩ =
        .ok (initRecord 2024 2, ⟨[], true⟩) ∧
      (initRecord 2024 2).length = daysInMonth 2024 2 ∧
      (initRecord 2024 2).map Prod.fst = monthDays 2024 2 ∧
      (∀ kv ∈ initRecord 2024 2, kv.2 = 0)) :=
  ⟨rfl, c4_load_missing ⟨strOf "p", 2024, 2⟩ ⟨[], false⟩
    (by decide) (by decide) rfl⟩

theorem lookupDay_eq_none (d : Date) (r : DailyRecord)
    (h : d ∉ r.map Prod.fst) : lookupDay d r = none := by
  induction r with
  | nil => rfl
  | cons kv rest ih =>
    simp only [List.map_cons, List.mem_cons, not_or] at h
    rw [lookupDay, if_neg (fun he => h.1 he.symm)]
    exact ih h.2

/-- C5.  `setDay` with a date outside the month covered by the record
fails with `OutOfRange` (in the Rust code, the `unwrap()` panic of
`state.get_mut(&day)`) and returns no modified record. -/
theorem c5_setday_out_of_range (y m : Nat) (r : DailyRecord) (d : Date)
    (hours : Nat)
    (hcov : r.map Prod.fst = monthDays y m)
    (hout : d ∉ monthDays y m) :
    setDay r d hours = .err .outOfRange := by
  rw [setDay, lookupDay_eq_none d r (by rw [hcov]; exact hout)]

/-- Witness for C5: setting 2024-05-01 on the April 2024 record. -/
theorem c5_setday_out_of_range_witness :
    (initRecord 2024 4).map Prod.fst = monthDays 2024 4 ∧
    (⟨2024, 5, 1⟩ : Date) ∉ monthDays 2024 4 ∧
    setDay (initRecord 2024 4) ⟨2024, 5, 1⟩ 8 = .err .outOfRange :=
  ⟨by decide, by decide,
    c5_setday_out_of_range 2024 4 (initRecord 2024 4) ⟨2024, 5, 1⟩ 8
      (by decide) (by decide)⟩

theorem lookupDay_mem_isSome (d : Date) (r : DailyRecord)
    (h : d ∈ r.map Prod.fst) : ∃ v, lookupDay d r = some v := by
  induction r with
  | nil => simp at h
  | cons kv rest ih =>
    obtain ⟨k, v⟩ := kv
    rw [lookupDay]
    by_cases he : k = d
    · exact ⟨v, by rw [if_pos he]⟩
    · simp only [List.map_cons, List.mem_cons] at h
      rcases h with h | h
      · exact absurd h.symm he
      · rw [if_neg he]
        exact ih h

theorem upd_cons (d : Date) (hours : Nat) (k : Date) (v : Nat) :
    (if (k, v).1 = d then ((k, v).1, hours) else (k, v)) =
      if k = d then (k, hours) else (k, v) := rfl

theorem lookupDay_update_self (d : Date) (hours : Nat) (r : DailyRecord)
    (h : d ∈ r.map Prod.fst) :
    lookupDay d (r.map (fun kv => if kv.1 = d then (kv.1, hours) else kv)) =
      some hours := by
  induction r with
  | nil => simp at h
  | cons kv rest ih =>
    obtain ⟨k, v⟩ := kv
    rw [List.map_cons, upd_cons]
    by_cases he : k = d
    · rw [if_pos he, lookupDay, if_pos he]
    · rw [if_neg he, lookupDay, if_neg he]
      apply ih
      simp only [List.map_cons, List.mem_cons] at h
      rcases h with h | h
      · exact absurd h.symm he
      · exact h

theorem lookupDay_update_other (d d' : Date) (hours : Nat) (r : DailyRecord)
    (hne : d' ≠ d) :
    lookupDay d' (r.map (fun kv => if kv.1 = d then (kv.1, hours) else kv)) =
      lookupDay d' r := by
  induction r with
  | nil => rfl
  | cons kv rest ih =>
    obtain ⟨k, v⟩ := kv
    rw [List.map_cons, upd_cons]
    by_cases he : k = d
    · have hkd : ¬ (k = d') := fun hc => hne (by rw [← hc, he])
      rw [if_pos he, lookupDay, if_neg hkd, lookupDay, if_neg hkd]
      exact ih
    · rw [if_neg he, lookupDay, lookupDay]
      by_cases he' : k = d'
      · rw [if_pos he', if_pos he']
      · rw [if_neg he', if_neg he']
        exact ih

theorem map_fst_update (d : Date) (hours : Nat) (r : DailyRecord) :
    (r.map (fun kv => if kv.1 = d then (kv.1, hours) else kv)).map Prod.fst =
      r.map Prod.fst := by
  rw [List.map_map]
  apply List.map_congr_left
  intro kv _
  simp only [Function.comp_apply]
  split <;> rfl

/-- C6.  `setDay` on a date the record covers succeeds and changes
exactly that one entry: the set day maps to the new hours, every
other date's entry is untouched, and the key list is unchanged. -/
theorem c6_setday_frame (y m : Nat) (r : DailyRecord) (d : Date) (hours : Nat)
    (hcov : r.map Prod.fst = monthDays y m) (hd : d ∈ monthDays y m) :
    ∃ out, setDay r d hours = .ok out ∧
      lookupDay d out = some hours ∧
      (∀ d', d' ≠ d → lookupDay d' out = lookupDay d' r) ∧
      out.map Prod.fst = r.map Prod.fst := by
  have hdm : d ∈ r.map Prod.fst := by rw [hcov]; exact hd
  obtain ⟨v, hv⟩ := lookupDay_mem_isSome d r hdm
  refine ⟨r.map (fun kv => if kv.1 = d then (kv.1, hours) else kv),
    ?_, ?_, ?_, ?_⟩
  · rw [setDay, hv]
  · exact lookupDay_update_self d hours r hdm
  · intro d' hne
    exact lookupDay_update_other d d' hours r hne
  · exact map_fst_update d hours r

/-- Witness for C6: setting 2024-04-06 to 5 hours in the fresh April
2024 record. -/
theorem c6_setday_frame_witness :
    (initRecord 2024 4).map Prod.fst = monthDays 2024 4 ∧
    (⟨2024, 4, 6⟩ : Date) ∈ monthDays 2024 4 ∧
    ∃ out, setDay (initRecord 2024 4) ⟨2024, 4, 6⟩ 5 = .ok out ∧
      lookupDay ⟨2024, 4, 6⟩ out = some 5 ∧
      (∀ d', d' ≠ ⟨2024, 4, 6⟩ →
        lookupDay d' out = lookupDay d' (initRecord 2024 4)) ∧
      out.map Prod.fst = (initRecord 2024 4).map Prod.fst :=
  ⟨by decide, by decide,
    c6_setday_frame 2024 4 (initRecord 2024 4) ⟨2024, 4, 6⟩ 5
      (by decide) (by decide)⟩

/-!
Renderer lemmas
-/

theorem renderRow_map (ds : List Date) (f : Date → Nat) :
    renderRow ds (ds.map (fun d => natToStr (f d))) =
      .ok (ds.flatMap (fun d => cellFor d (natToStr (f d)) :: sepAfter d)) := by
  induction ds with
  | nil => rfl
  | cons d ds' ih =>
    simp only [List.map_cons, renderRow, List.flatMap_cons]
    rw [ih]
    rfl

/-- Running `draw_timesheet` on a file just saved from the canonical record:
per day, the day's cell followed by the conditional week separator. -/
theorem drawTimesheet_save_canonical (y m : Nat) (h1 : 1 ≤ m) (h2 : m ≤ 12)
    (f : Date → Nat) :
    drawTimesheet y m (saveContent (canonical y m f)) =
      .ok ((monthDays y m).flatMap
        (fun d => cellFor d (natToStr (f d)) :: sepAfter d)) := by
  have hsort : List.insertionSort byDate (canonical y m f) = canonical y m f :=
    List.Sorted.insertionSort_eq (canonical_sorted y m f)
  have hcne : canonical y m f ≠ [] := by
    rw [canonical]
    simpa using monthDays_ne_nil y m h1 h2
  rw [drawTimesheet, rustLines_saveContent, hsort]
  show renderRow (monthLoop y m)
    (splitC ',' (interc ',' ((canonical y m f).map (fun kv => natToStr kv.2)))) = _
  rw [splitC_hoursLine _ hcne, monthLoop_eq y m h1 h2]
  have hmm : (canonical y m f).map (fun kv => natToStr kv.2) =
      (monthDays y m).map (fun d => natToStr (f d)) := by
    rw [canonical, List.map_map]
    rfl
  rw [hmm, renderRow_map]

theorem cellFor_not_separator (d : Date) (t : Str) :
    ((cellFor d t).2 != CellKind.separator) = true := by
  rw [cellFor]
  split <;> rfl

theorem sepAfter_filter (d : Date) :
    (sepAfter d).filter (fun c => c.2 != CellKind.separator) = [] := by
  rw [sepAfter]
  split <;> rfl

/-- Dropping the separators from a rendered row leaves exactly one
cell per day, in day order. -/
theorem dayCells_of_flatMap (ds : List Date) (h : Date → Cell)
    (hk : ∀ d, ((h d).2 != CellKind.separator) = true) :
    ((ds.flatMap (fun d => h d :: sepAfter d)).filter
        (fun c => c.2 != CellKind.separator)) = ds.map h := by
  induction ds with
  | nil => rfl
  | cons d ds' ih =>
    rw [List.flatMap_cons, List.filter_append, ih, List.map_cons,
        List.filter_cons, if_pos (hk d), sepAfter_filter]
    rfl

theorem natToStr_eq_zero_iff (n : Nat) : natToStr n = ['0'] ↔ n = 0 := by
  constructor
  · intro h
    have hp := rustParseNat_natToStr n
    rw [h] at hp
    have h0 : rustParseNat ['0'] = some 0 := by decide
    rw [h0] at hp
    exact (Option.some.inj hp).symm
  · intro h
    subst h
    rfl

theorem monthDays_getElem (y m i : Nat) (hi : i < daysInMonth y m) :
    (monthDays y m)[i]? = some ⟨y, m, i + 1⟩ := by
  rw [monthDays, List.getElem?_map, List.getElem?_range hi]
  rfl

/-- C7.  In the rendered hours line of a saved record, the cell of a
Saturday or Sunday whose stored value is exactly 0 is three blank
spaces (classified weekend); every other cell shows the value's
digits right-padded to width 3 — weekday cells always, zero
included. -/
theorem c7_weekend_zero_blank (y m : Nat) (h1 : 1 ≤ m) (h2 : m ≤ 12)
    (f : Date → Nat) :
    ∃ cells, drawTimesheet y m (saveContent (canonical y m f)) = .ok cells ∧
      ∀ i, i < daysInMonth y m →
        (cells.filter (fun c => c.2 != CellKind.separator))[i]? =
          some (if isWeekendDay ⟨y, m, i + 1⟩ then
              ((if f ⟨y, m, i + 1⟩ = 0 then strOf "   "
                else padTo3 (natToStr (f ⟨y, m, i + 1⟩))), CellKind.weekend)
            else (padTo3 (natToStr (f ⟨y, m, i + 1⟩)), CellKind.workday)) := by
  refine ⟨_, drawTimesheet_save_canonical y m h1 h2 f, ?_⟩
  intro i hi
  rw [dayCells_of_flatMap _ _ (fun d => cellFor_not_separator d _),
      List.getElem?_map, monthDays_getElem y m i hi]
  simp only [Option.map_some']
  congr 1
  rw [cellFor]
  by_cases hw : isWeekendDay ⟨y, m, i + 1⟩
  · rw [if_pos hw, if_pos hw]
    by_cases hz : f ⟨y, m, i + 1⟩ = 0
    · rw [if_pos ((natToStr_eq_zero_iff _).2 hz), if_pos hz]
      rfl
    · rw [if_neg (fun hc => hz ((natToStr_eq_zero_iff _).1 hc)), if_neg hz]
  · rw [if_neg hw, if_neg hw]

/-- Witness for C7 at the spec's scenario: April 2024 with 8 hours on
Monday the 1st and 0 on Saturday the 6th. -/
theorem c7_weekend_zero_blank_witness :
    ∃ cells, drawTimesheet 2024 4
        (saveContent (canonical 2024 4 (fun d => if d.day = 1 then 8 else 0))) =
        .ok cells ∧
      ∀ i, i < daysInMonth 2024 4 →
        (cells.filter (fun c => c.2 != CellKind.separator))[i]? =
          some (if isWeekendDay ⟨2024, 4, i + 1⟩ then
              ((if (fun d : Date => if d.day = 1 then 8 else 0) ⟨2024, 4, i + 1⟩ = 0
                then strOf "   "
                else padTo3 (natToStr
                  ((fun d : Date => if d.day = 1 then 8 else 0) ⟨2024, 4, i + 1⟩))),
                CellKind.weekend)
            else (padTo3 (natToStr
                ((fun d : Date => if d.day = 1 then 8 else 0) ⟨2024, 4, i + 1⟩)),
              CellKind.workday)) :=
  c7_weekend_zero_blank 2024 4 (by decide) (by decide)
    (fun d => if d.day = 1 then 8 else 0)

/-- C8.  In both rendered lines a `"|"` separator token appears
immediately after a day's cell precisely when the following calendar
day — `iter + Duration::days(1)`, which for the month's last day is
the first day of the next month — is a Monday. -/
theorem c8_separator_iff_next_monday (y m : Nat) (h1 : 1 ≤ m) (h2 : m ≤ 12)
    (f : Date → Nat) :
    drawDays y m = (monthDays y m).flatMap (fun d =>
        (padTo3 (natToStr d.day), CellKind.header) ::
          (if d.nextDay.weekday = Weekday.mon
            then [(['|'], CellKind.separator)] else [])) ∧
    drawTimesheet y m (saveContent (canonical y m f)) =
      .ok ((monthDays y m).flatMap (fun d =>
        cellFor d (natToStr (f d)) ::
          (if d.nextDay.weekday = Weekday.mon
            then [(['|'], CellKind.separator)] else []))) := by
  constructor
  · rw [drawDays, monthLoop_eq y m h1 h2]
    rfl
  · rw [drawTimesheet_save_canonical y m h1 h2 f]
    rfl

/-- Witness for C8 at April 2023: April 30th 2023 is a Sunday, May
1st 2023 a Monday, so the rendered line ends with a separator right
after the last day's cell. -/
theorem c8_separator_iff_next_monday_witness :
    (drawDays 2023 4 = (monthDays 2023 4).flatMap (fun d =>
        (padTo3 (natToStr d.day), CellKind.header) ::
          (if d.nextDay.weekday = Weekday.mon
            then [(['|'], CellKind.separator)] else [])) ∧
      drawTimesheet 2023 4 (saveContent (canonical 2023 4 (fun _ => 1))) =
        .ok ((monthDays 2023 4).flatMap (fun d =>
          cellFor d (natToStr 1) ::
            (if d.nextDay.weekday = Weekday.mon
              then [(['|'], CellKind.separator)] else [])))) ∧
    (Date.nextDay ⟨2023, 4, 30⟩ = ⟨2023, 5, 1⟩ ∧
      Date.weekday ⟨2023, 5, 1⟩ = Weekday.mon ∧
      (drawDays 2023 4).getLast? = some (['|'], CellKind.separator)) :=
  ⟨c8_separator_iff_next_monday 2023 4 (by decide) (by decide) (fun _ => 1),
    by decide, by decide, by decide⟩

/-- C9.  Rendering walks the month from day 1 and stops exactly at
the last calendar day: each line carries one day cell per calendar
day of the month — the header line's day numbers are exactly
`1 .. daysInMonth` — with no cell from the next month, for every
month length (28, 29, 30, 31, leap February included). -/
theorem c9_iteration_exact (y m : Nat) (h1 : 1 ≤ m) (h2 : m ≤ 12)
    (f : Date → Nat) :
    ((drawDays y m).filter (fun c => c.2 != CellKind.separator)).map Prod.fst =
      (List.range (daysInMonth y m)).map (fun i => padTo3 (natToStr (i + 1))) ∧
    ∃ cells, drawTimesheet y m (saveContent (canonical y m f)) = .ok cells ∧
      (cells.filter (fun c => c.2 != CellKind.separator)).length =
        daysInMonth y m := by
  constructor
  · rw [drawDays, monthLoop_eq y m h1 h2,
        dayCells_of_flatMap (monthDays y m)
          (fun d => (padTo3 (natToStr d.day), CellKind.header))
          (fun d => rfl),
        monthDays, List.map_map, List.map_map]
    rfl
  · refine ⟨_, drawTimesheet_save_canonical y m h1 h2 f, ?_⟩
    rw [dayCells_of_flatMap _ _ (fun d => cellFor_not_separator d _),
        List.length_map, monthDays, List.length_map, List.length_range]

/-- Witness for C9 at leap-year February 2024 (29 days). -/
theorem c9_iteration_exact_witness :
    daysInMonth 2024 2 = 29 ∧
    (((drawDays 2024 2).filter (fun c => c.2 != CellKind.separator)).map
        Prod.fst =
      (List.range (daysInMonth 2024 2)).map (fun i => padTo3 (natToStr (i + 1))) ∧
    ∃ cells, drawTimesheet 2024 2 (saveContent (canonical 2024 2 (fun _ => 0))) =
        .ok cells ∧
      (cells.filter (fun c => c.2 != CellKind.separator)).length =
        daysInMonth 2024 2) :=
  ⟨by decide, c9_iteration_exact 2024 2 (by decide) (by decide) (fun _ => 0)⟩

/-- C10.  Parsing an existing backing file with at least two lines
depends only on the second line (and the month key): the header line
is never read, so files agreeing on the second line parse alike. -/
theorem c10_header_never_read (y m : Nat) (c1 c2 : Str)
    (hn1 : 2 ≤ (rustLines c1).length) (hn2 : 2 ≤ (rustLines c2).length)
    (heq : (rustLines c1)[1]? = (rustLines c2)[1]?) :
    parseContent y m c1 = parseContent y m c2 := by
  rw [parseContent, parseContent, heq]

/-- Witness for C10: the two April files differ in their header lines
only and parse to the same record. -/
theorem c10_header_never_read_witness :
    2 ≤ (rustLines garbledHeaderContent).length ∧
    2 ≤ (rustLines plainHeaderContent).length ∧
    (rustLines garbledHeaderContent)[1]? = (rustLines plainHeaderContent)[1]? ∧
    parseContent 2024 4 garbledHeaderContent =
      parseContent 2024 4 plainHeaderContent :=
  ⟨by decide, by decide, by decide,
    c10_header_never_read 2024 4 garbledHeaderContent plainHeaderContent
      (by decide) (by decide) (by decide)⟩

end Jikan










